import Mathlib

/-!
Verification of the cluster-creator clustering engine.

This file gives a shallow embedding of the point / point-group data model, the
staged-mutation protocol and the greedy queue-consumption engine of the
repository (src/geo_tools/point.py, src/geo_tools/cluster.py,
src/geo_tools/manager.py, and the older top-level copies src/point.py and
src/cluster.py), and proves or refutes the specified properties.

External numerical collaborators (the haversine metric evaluated over reals,
the bounded minimizer behind the centroid solver, the kernel-density scorer)
are abstracted as function parameters (`d`, `solve`, `select`): the properties
proved here hold for every choice of those collaborators, and concrete
executable instantiations are supplied for witnesses.
-/

namespace GeoTools

/-- A geographic point record (Point of src/geo_tools/point.py and
src/point.py): identity, coordinates and a visit weight (`visits`, default 0 in
the source).  Coordinates and weights are modelled as rationals; Python object
identity is modelled by plain structural equality on the record. -/
structure Point where
  id : Nat
  lat : ℚ
  lng : ℚ
  visits : ℚ
  deriving DecidableEq, Repr

/-- Point.__init__ of src/geo_tools/point.py (lines 24-33): construction raises
TypeError (modelled as `none`) exactly when the keyword record carries neither
a 'rec_id' nor an 'id' key; the coordinates are stored without any range
check. -/
def Point.init (lat lng : ℚ) (keys : List String) (pid : Nat) (v : ℚ) :
    Option Point :=
  if "rec_id" ∈ keys ∨ "id" ∈ keys then
    some { id := pid, lat := lat, lng := lng, visits := v }
  else none

/-- The square of Point.dist_to_origin of src/point.py (lines 45-48): the
source returns ((lat*1000)^2 + (lng*1000)^2)^(1/2), the cartesian magnitude;
its square is kept as the executable key, and theorems about the distance
itself are stated through `Real.sqrt` of this value. -/
def dist_to_origin_sq (p : Point) : ℚ :=
  (p.lat * 1000) ^ 2 + (p.lng * 1000) ^ 2

/-- Sum of the `visits` weights of a list of points (the comprehension
`sum([p.visits for p in points])` used by PointGroup.get_visits and
Cluster.get_visits). -/
def sumVisits (l : List Point) : ℚ :=
  (l.map Point.visits).sum

/-- Python's built-in max with a key function: a left fold that replaces the
champion only on a strictly greater key, so on ties the first maximal element
in iteration order wins. -/
def py_max_by (f : Point → ℚ) (best : Point) : List Point → Point
  | [] => best
  | q :: qs => py_max_by f (if f q > f best then q else best) qs

/-- Modelled from the spec: `PointManager.get_furthest`, the Furthest seed
selector with its default reference.  The method is called by
`PointManager.find_clusters_top_right` (src/geo_tools/managers.py line 186) but
its definition is not under src/; per the spec (section 4.4) it returns the
pool member maximizing straight-line distance to the origin (0,0), i.e.
`Point.dist_to_origin` of src/point.py, ties broken in favour of the first
member in pool iteration order (Python max semantics).  Maximizing the
distance is equivalent to maximizing its square `dist_to_origin_sq`, which
keeps the selector executable. -/
def get_furthest_origin : List Point → Option Point
  | [] => none
  | p :: ps => some (py_max_by dist_to_origin_sq p ps)

/-- The ordering on (point, distance) pairs used by the candidate queue:
compare on the distance component (Python `list.sort(key=lambda x: x[1])`). -/
def distLE (a b : Point × ℚ) : Prop := a.2 ≤ b.2

instance : DecidableRel distLE := fun a b => inferInstanceAs (Decidable (a.2 ≤ b.2))

instance : IsTotal (Point × ℚ) distLE := ⟨fun a b => le_total a.2 b.2⟩

instance : IsTrans (Point × ℚ) distLE := ⟨fun _ _ _ hab hbc => le_trans hab hbc⟩

/-- PointGroup.get_nearest with queue=True (src/geo_tools/point.py lines
143-170): pair every pool point with its distance to the reference point and
stable-sort ascending by distance (Python's stable `list.sort` with a key is
modelled by insertion sort). -/
def get_nearest_queue (d : Point → Point → ℚ) (point : Point)
    (pool : List Point) : List (Point × ℚ) :=
  List.insertionSort distLE (pool.map fun p => (p, d point p))

/-- A full run of the PointGroup.get_points generator (src/geo_tools/point.py
lines 260-264): walk the queue, yielding each point and then removing it from
the pool when the generator is resumed.  Returns the yielded sequence and the
final pool. -/
def get_points_loop (queue : List (Point × ℚ)) (pool : List Point) :
    List Point × List Point :=
  match queue with
  | [] => ([], pool)
  | (p, _) :: rest =>
    let r := get_points_loop rest (pool.erase p)
    (p :: r.1, r.2)

/-- PointGroup of src/geo_tools/point.py (lines 74-104).  `points` models the
Python set `_points` as a duplicate-free list, `center` the cached `_center`.
The caps are `Option ℚ` where `none` stands for any falsy Python cap value
(False, None or 0): the source only ever tests a cap for truthiness before
comparing against it, so this is an exact encoding. -/
structure PointGroup where
  points : List Point
  center : Point
  current_distance : ℚ
  current_visits : ℚ
  max_distance : Option ℚ
  max_visits : Option ℚ
  deriving DecidableEq, Repr

/-- Python `set.add` on the list model of a set: no-op when already present. -/
def setAdd (l : List Point) (p : Point) : List Point :=
  if p ∈ l then l else p :: l

/-- The distance-cap tail of PointGroup.add_point (src/geo_tools/point.py lines
245-258), reached after the visit-cap check.  `solve` abstracts get_center's
call into the external minimizer; `d` abstracts Point.dist_to_other.  Returns
the post-call state and whether MaxReachedException was raised. -/
def add_point_dist (solve : List Point → Point) (d : Point → Point → ℚ)
    (g : PointGroup) (p : Point) (update_center : Bool) : PointGroup × Bool :=
  match g.max_distance with
  | some maxd =>
    let g1 := if update_center then
        { g with points := setAdd g.points p, center := solve (setAdd g.points p) }
      else g
    let new_distance := d p g1.center
    if new_distance > maxd then
      (if update_center then { g1 with points := g1.points.erase p } else g1, true)
    else
      ({ g1 with current_distance := new_distance,
                 points := setAdd g1.points p }, false)
  | none => ({ g with points := setAdd g.points p }, false)

/-- PointGroup.add_point (src/geo_tools/point.py lines 220-258).  Returns the
post-call state of the group together with a flag telling whether
MaxReachedException was raised (the Python object keeps its mutations even
when the exception propagates, so the state is returned in both cases). -/
def add_point (solve : List Point → Point) (d : Point → Point → ℚ)
    (g : PointGroup) (p : Point) (update_center : Bool) : PointGroup × Bool :=
  let g0 :=
    match g.max_distance, g.max_visits with
    | none, none =>
      let pts := setAdd g.points p
      { g with points := pts, center := if update_center then solve pts else g.center }
    | _, _ => g
  match g0.max_visits with
  | some maxv =>
    let new_visits := g0.current_visits + p.visits
    if new_visits > maxv then (g0, true)
    else add_point_dist solve d { g0 with current_visits := new_visits } p update_center
  | none => add_point_dist solve d g0 p update_center

/-- PointGroup.__init__ on a single seed point (src/geo_tools/point.py lines
75-104, Point branch): points = {p}, center = p; when a distance cap is active
current_distance is get_furthest()[1] = d p p (the seed's distance to the
centre, which is itself); when a visit cap is active current_visits is the
seed's visits. -/
def PointGroup.mkSeed (d : Point → Point → ℚ) (p : Point)
    (max_distance max_visits : Option ℚ) : PointGroup :=
  { points := [p], center := p,
    current_distance := if max_distance.isSome then d p p else 0,
    current_visits := if max_visits.isSome then p.visits else 0,
    max_distance := max_distance, max_visits := max_visits }

/-- The queue-consumption loop of PointManager.cluster (src/geo_tools/manager.py
lines 85-94) fused with the get_points generator it drives
(src/geo_tools/point.py lines 260-264): each successfully added point is
removed from the pool when the generator resumes; on MaxReachedException the
loop breaks, leaving the rejected point in the pool (the generator is dropped
before its removal statement runs).  Returns the grown cluster and the
remaining pool. -/
def consume_queue (solve : List Point → Point) (d : Point → Point → ℚ)
    (uc : Bool) : List (Point × ℚ) → PointGroup → List Point →
    PointGroup × List Point
  | [], g, pool => (g, pool)
  | (p, _) :: rest, g, pool =>
    match add_point solve d g p uc with
    | (g1, true) => (g1, pool)
    | (g1, false) => consume_queue solve d uc rest g1 (pool.erase p)

/-- One iteration of the while-loop of PointManager.cluster (src/geo_tools/
manager.py lines 79-96): the chosen seed is removed from the pool (remove=True
inside the seed getter), a fresh single-point PointGroup is built, and the
distance-sorted queue of the remaining pool is consumed into it.  As in the
source, update_center is passed exactly when a distance cap is active. -/
def cluster_step (solve : List Point → Point) (d : Point → Point → ℚ)
    (seed : Point) (pool : List Point) (md mv : Option ℚ) :
    PointGroup × List Point :=
  let pool1 := pool.erase seed
  let queue := get_nearest_queue d seed pool1
  consume_queue solve d md.isSome queue (PointGroup.mkSeed d seed md mv) pool1

/-- The while-loop of PointManager.cluster (src/geo_tools/manager.py lines
79-96).  The seed selector (get_furthest for "equal_amount",
get_highest_concentration for "highest_concentration", both backed by external
numerics over the pool) is abstracted as `select`.  Fuel bounds the number of
loop rounds; `pool.length` rounds always suffice because every round removes
at least its seed from the pool. -/
def cluster_loop (solve : List Point → Point) (d : Point → Point → ℚ)
    (select : List Point → Point) (md mv : Option ℚ) :
    Nat → List Point → List PointGroup → List PointGroup × List Point
  | 0, pool, assigned => (assigned, pool)
  | fuel + 1, pool, assigned =>
    if pool.isEmpty then (assigned, pool)
    else
      let seed := select pool
      let r := cluster_step solve d seed pool md mv
      cluster_loop solve d select md mv fuel r.2 (assigned ++ [r.1])

/-- PointManager.cluster without pre-defined seeds (src/geo_tools/manager.py
lines 69-96): starting from the full unassigned pool and an empty assigned
list, repeatedly pick a seed and grow a cluster until the pool is empty.
Returns the assigned clusters in creation order and the final pool. -/
def cluster_run (solve : List Point → Point) (d : Point → Point → ℚ)
    (select : List Point → Point) (md mv : Option ℚ) (pool : List Point) :
    List PointGroup × List Point :=
  cluster_loop solve d select md mv pool.length pool []

/-- Cluster of src/geo_tools/cluster.py (and src/cluster.py).  `staged_points`
is a list or None in Python and starts as the empty list; the source only ever
tests it for truthiness, and a set staged list is never empty (it is always
committed-points ++ [candidate]), so the falsy values [] and None are both
modelled as `none`.  The DistanceCalculator helper only carries scratch input
for the external minimizer and is not modelled. -/
structure Cluster where
  points : List Point
  staged_points : Option (List Point)
  centre : Option Point
  staged_centre : Option Point
  deriving DecidableEq, Repr

/-- Python max over a (nonempty) list of rationals; 0 on the empty list, which
the callers below never hit. -/
def maxD : List ℚ → ℚ
  | [] => 0
  | [x] => x
  | x :: y :: xs => max x (maxD (y :: xs))

/-- Cluster.stage_point of src/geo_tools/cluster.py (lines 14-35): rebuild the
staged list from the committed points plus the candidate, compute the staged
centre with the external minimizer (find_centre(staged=True), which does not
touch the committed centre), and return the hypothetical max distance to the
staged centre (distance=true) or the hypothetical aggregate weight
get_visits(staged=True) (distance=false).  Note: the source performs no
already-staged check; a pending candidate is silently overwritten. -/
def Cluster.stage_point (solve : List Point → Point) (d : Point → Point → ℚ)
    (c : Cluster) (p : Point) (distance : Bool) : Cluster × ℚ :=
  let sp := c.points ++ [p]
  let sc := solve sp
  ({ c with staged_points := some sp, staged_centre := some sc },
   if distance then maxD (sp.map fun q => d q sc) else sumVisits sp)

/-- Cluster.remove_staged_point of src/geo_tools/cluster.py (lines 59-63):
assert a truthy staged list (`none` models the assert failure), then clear
the staging slot and nothing else. -/
def Cluster.remove_staged_point (c : Cluster) : Option Cluster :=
  match c.staged_points with
  | none => none
  | some _ => some { c with staged_points := none, staged_centre := none }

/-- Cluster.get_visits of the older top-level copy src/cluster.py (lines
32-40): relative to the geo_tools copy the branches on `staged` are swapped,
so staged=True sums the committed points and staged=False requires a staged
list.  `none` models the assert failure. -/
def OldCluster.get_visits (c : Cluster) (staged : Bool) : Option ℚ :=
  if staged then some (sumVisits c.points)
  else
    match c.staged_points with
    | none => none
    | some sp => some (sumVisits sp)

/-- Cluster.stage_point of src/cluster.py (lines 9-30) called with
distance=False: the staging itself is identical to the geo_tools copy, but the
returned weight comes from OldCluster.get_visits with staged=True. -/
def OldCluster.stage_point_visits (solve : List Point → Point)
    (c : Cluster) (p : Point) : Cluster × Option ℚ :=
  let sp := c.points ++ [p]
  let c1 := { c with staged_points := some sp, staged_centre := some (solve sp) }
  (c1, OldCluster.get_visits c1 true)

/-- A default point, used only to give executable stand-ins total types. -/
def pt0 : Point := { id := 0, lat := 0, lng := 0, visits := 0 }

/-- A concrete executable stand-in for the external bounded minimizer behind
get_center / find_centre: any total function is an admissible collaborator. -/
def solveC (l : List Point) : Point := l.headD pt0

/-- A concrete executable stand-in for the haversine metric: squared euclidean
distance on raw coordinates (only relative comparisons reach the engine). -/
def dC (a b : Point) : ℚ := (a.lat - b.lat) ^ 2 + (a.lng - b.lng) ^ 2

/-- A concrete executable seed selector for witnesses. -/
def selectC (l : List Point) : Point := l.headD pt0

theorem selectC_mem : ∀ l : List Point, l ≠ [] → selectC l ∈ l := by
  intro l hl
  cases l with
  | nil => exact absurd rfl hl
  | cons a t => exact List.mem_cons_self a t

/-- Concrete sample points for witnesses and counterexamples. -/
def ptA : Point := { id := 1, lat := 0, lng := 0, visits := 3 }

def ptB : Point := { id := 2, lat := 5, lng := 0, visits := 2 }

def ptC : Point := { id := 3, lat := 1, lng := 2, visits := 4 }

def ptD : Point := { id := 4, lat := 0, lng := 7, visits := 1 }

/-- The weight invariant maintained by every group the engine grows under an
active visit cap C: the recorded counter dominates the true aggregate weight,
and either the counter is within the cap or the group is still the single
over-cap seed. -/
def WInv (C : ℚ) (g : PointGroup) : Prop :=
  sumVisits g.points ≤ g.current_visits ∧
  (g.current_visits ≤ C ∨
    ∃ q, g.points = [q] ∧ C < q.visits ∧ g.current_visits = q.visits)

/-- A group with both caps active, about to accept a light but distant point:
fixture for the atomicity counterexample. -/
def gBothCaps : PointGroup :=
  { points := [ptA], center := ptA, current_distance := 0, current_visits := 3,
    max_distance := some 1, max_visits := some 10 }

/-- A group with only a visit cap, already nearly full: fixture for the
amended atomicity witness. -/
def gVisitsCap : PointGroup :=
  { points := [ptA], center := ptA, current_distance := 0, current_visits := 3,
    max_distance := none, max_visits := some 4 }

/-- An unconstrained group already holding ptA: fixture for the idempotence
witness. -/
def gFree : PointGroup :=
  { points := [ptA], center := ptA, current_distance := 0, current_visits := 0,
    max_distance := none, max_visits := none }

/-- An idle one-point cluster: fixture for the staging counterexamples. -/
def clOne : Cluster :=
  { points := [ptA], staged_points := none, centre := none, staged_centre := none }

theorem setAdd_of_mem {l : List Point} {p : Point} (h : p ∈ l) : setAdd l p = l := by
  simp [setAdd, h]

theorem setAdd_of_not_mem {l : List Point} {p : Point} (h : p ∉ l) :
    setAdd l p = p :: l := by
  simp [setAdd, h]

theorem mem_setAdd_self (l : List Point) (p : Point) : p ∈ setAdd l p := by
  by_cases h : p ∈ l <;> simp [setAdd, h]

theorem setAdd_cons_self (l : List Point) (p : Point) : setAdd (p :: l) p = p :: l :=
  setAdd_of_mem (List.mem_cons_self p l)

theorem setAdd_idem (l : List Point) (p : Point) :
    setAdd (setAdd l p) p = setAdd l p :=
  setAdd_of_mem (mem_setAdd_self l p)

theorem setAdd_nodup {l : List Point} {p : Point} (h : l.Nodup) :
    (setAdd l p).Nodup := by
  by_cases hm : p ∈ l
  · simpa [setAdd, hm] using h
  · simp [setAdd, hm, h]

theorem sumVisits_cons (p : Point) (l : List Point) :
    sumVisits (p :: l) = p.visits + sumVisits l := by
  simp [sumVisits]

theorem sumVisits_setAdd_le {p : Point} (l : List Point) (h : 0 ≤ p.visits) :
    sumVisits (setAdd l p) ≤ sumVisits l + p.visits := by
  by_cases hm : p ∈ l
  · rw [setAdd_of_mem hm]; linarith
  · rw [setAdd_of_not_mem hm, sumVisits_cons]; linarith

theorem sumVisits_erase_le {p : Point} (l : List Point) (h : 0 ≤ p.visits) :
    sumVisits (l.erase p) ≤ sumVisits l := by
  induction l with
  | nil => simp
  | cons a t ih =>
    by_cases hap : a = p
    · subst hap
      rw [List.erase_cons_head, sumVisits_cons]
      linarith
    · rw [List.erase_cons, if_neg (by simp [hap]), sumVisits_cons, sumVisits_cons]
      linarith

theorem add_point_max_eq (solve : List Point → Point) (d : Point → Point → ℚ)
    (g : PointGroup) (p : Point) (uc : Bool) :
    ((add_point solve d g p uc).1).max_visits = g.max_visits ∧
    ((add_point solve d g p uc).1).max_distance = g.max_distance := by
  cases uc <;>
    rcases hmd : g.max_distance with _ | mdv <;>
    rcases hmv : g.max_visits with _ | mvv <;>
    simp [add_point, add_point_dist, hmd, hmv] <;>
    split_ifs <;> simp_all

theorem add_point_points_raised (solve : List Point → Point) (d : Point → Point → ℚ)
    {g : PointGroup} {p : Point} (uc : Bool) (h : p ∉ g.points) :
    (add_point solve d g p uc).2 = true →
      ((add_point solve d g p uc).1).points = g.points := by
  cases uc <;>
    rcases hmd : g.max_distance with _ | mdv <;>
    rcases hmv : g.max_visits with _ | mvv <;>
    simp [add_point, add_point_dist, hmd, hmv, setAdd_of_not_mem h, setAdd_cons_self] <;>
    split_ifs <;>
    simp [List.erase_cons_head]

theorem add_point_points_ok (solve : List Point → Point) (d : Point → Point → ℚ)
    {g : PointGroup} {p : Point} (uc : Bool) (h : p ∉ g.points) :
    (add_point solve d g p uc).2 = false →
      ((add_point solve d g p uc).1).points = p :: g.points := by
  cases uc <;>
    rcases hmd : g.max_distance with _ | mdv <;>
    rcases hmv : g.max_visits with _ | mvv <;>
    simp [add_point, add_point_dist, hmd, hmv, setAdd_of_not_mem h, setAdd_cons_self] <;>
    split_ifs <;>
    simp [List.erase_cons_head]

/-- C10: for an unconstrained PointGroup add_point is idempotent on membership
(Python set.add), so a group's membership never acquires duplicates. -/
theorem add_point_idempotent (solve : List Point → Point) (d : Point → Point → ℚ)
    (g : PointGroup) (p : Point) (uc : Bool)
    (hmv : g.max_visits = none) (hmd : g.max_distance = none) :
    (p ∈ g.points → ((add_point solve d g p uc).1).points = g.points) ∧
    (g.points.Nodup → ((add_point solve d g p uc).1).points.Nodup) := by
  constructor
  · intro hm
    simp [add_point, add_point_dist, hmd, hmv, setAdd_idem, setAdd_of_mem hm]
  · intro hnd
    simp [add_point, add_point_dist, hmd, hmv, setAdd_idem]
    exact setAdd_nodup hnd

/-- Witness for add_point_idempotent at a concrete group already holding the
added point. -/
theorem add_point_idempotent_witness :
    (gFree.max_visits = none ∧ gFree.max_distance = none ∧ ptA ∈ gFree.points) ∧
    ((add_point solveC dC gFree ptA false).1).points = gFree.points :=
  ⟨⟨rfl, rfl, by decide⟩,
   (add_point_idempotent solveC dC gFree ptA false rfl rfl).1 (by decide)⟩

/-- C3 counterexample: with both caps active, a point that passes the weight
check but fails the distance check makes add_point raise after it has already
committed the incremented weight counter, so the group is not left unchanged. -/
theorem add_point_enforce_cex :
    (add_point solveC dC gBothCaps ptB false).2 = true ∧
    ((add_point solveC dC gBothCaps ptB false).1).current_visits = 5 ∧
    gBothCaps.current_visits = 3 ∧
    (add_point solveC dC gBothCaps ptB false).1 ≠ gBothCaps := by
  have hev : add_point solveC dC gBothCaps ptB false =
      ({ gBothCaps with current_visits := 5 }, true) := by
    norm_num [add_point, add_point_dist, gBothCaps, ptA, ptB, dC]
  refine ⟨by rw [hev], by rw [hev], rfl, ?_⟩
  rw [hev]
  intro hcon
  have h5 := congrArg PointGroup.current_visits hcon
  simp [gBothCaps] at h5

/-- C3 amended: with update_center false, a cap-rejected add_point leaves
membership, cached centroid and current distance unchanged, and leaves the
whole group unchanged whenever at most one cap is active; but when both caps
are active and the weight check passes while the distance check fails, the
weight counter keeps the incremented value.  When nothing is exceeded the
point is committed immediately. -/
theorem add_point_enforce (solve : List Point → Point) (d : Point → Point → ℚ)
    (g : PointGroup) (p : Point) :
    ((add_point solve d g p false).2 = true →
        ((add_point solve d g p false).1).points = g.points ∧
        ((add_point solve d g p false).1).center = g.center ∧
        ((add_point solve d g p false).1).current_distance = g.current_distance) ∧
    ((g.max_visits = none ∨ g.max_distance = none) →
        (add_point solve d g p false).2 = true →
        (add_point solve d g p false).1 = g) ∧
    ((add_point solve d g p false).2 = false →
        p ∈ ((add_point solve d g p false).1).points) ∧
    (∀ mv mdv, g.max_visits = some mv → g.max_distance = some mdv →
        (add_point solve d g p false).2 = true →
        ¬ (g.current_visits + p.visits > mv) →
        ((add_point solve d g p false).1).current_visits =
          g.current_visits + p.visits) := by
  rcases hmd : g.max_distance with _ | mdv <;>
    rcases hmv : g.max_visits with _ | mvv <;>
    simp [add_point, add_point_dist, hmd, hmv, mem_setAdd_self] <;>
    try split_ifs <;>
    simp_all [mem_setAdd_self]

/-- Witness for add_point_enforce: a single-cap rejection leaves the concrete
group unchanged. -/
theorem add_point_enforce_witness :
    (gVisitsCap.max_visits = none ∨ gVisitsCap.max_distance = none) ∧
    (add_point solveC dC gVisitsCap ptB false).2 = true ∧
    (add_point solveC dC gVisitsCap ptB false).1 = gVisitsCap :=
  ⟨Or.inr rfl,
   by norm_num [add_point, add_point_dist, gVisitsCap, ptA, ptB],
   (add_point_enforce solveC dC gVisitsCap ptB).2.1 (Or.inr rfl)
     (by norm_num [add_point, add_point_dist, gVisitsCap, ptA, ptB])⟩

/-- C4 counterexample: staging a second candidate while one is pending does
not fail; it silently rebuilds the staged list around the new candidate. -/
theorem stage_point_double_cex :
    ((Cluster.stage_point solveC dC clOne ptB true).1).staged_points =
      some [ptA, ptB] ∧
    ((Cluster.stage_point solveC dC
        ((Cluster.stage_point solveC dC clOne ptB true).1) ptC true).1).staged_points =
      some [ptA, ptC] := by
  constructor <;> rfl

/-- C4 amended: a second stage call always succeeds and replaces the pending
candidate: the staging slot is rebuilt from the committed membership plus the
new candidate, and the committed membership is untouched; no already-staged
check exists in the source. -/
theorem stage_point_overwrites (solve : List Point → Point) (d : Point → Point → ℚ)
    (c : Cluster) (x y : Point) (dx dy : Bool) :
    ((Cluster.stage_point solve d
        ((Cluster.stage_point solve d c x dx).1) y dy).1).staged_points =
      some (c.points ++ [y]) ∧
    ((Cluster.stage_point solve d
        ((Cluster.stage_point solve d c x dx).1) y dy).1).points = c.points := by
  constructor <;> rfl

/-- C5: stage followed by discard restores the cluster exactly: committed
membership and cached centroid are byte-for-byte the pre-stage values and the
staging slot is cleared. -/
theorem stage_discard_restores (solve : List Point → Point) (d : Point → Point → ℚ)
    (c : Cluster) (p : Point) (dist : Bool) :
    Cluster.remove_staged_point ((Cluster.stage_point solve d c p dist).1) =
      some { c with staged_points := none, staged_centre := none } := by
  rfl

/-- C6: in the top-level copy src/cluster.py, get_visits has its `staged`
branches swapped, so stage_point with distance=False reports the weight of the
committed members only (3 here) instead of members plus candidate (5). -/
theorem old_get_visits_swapped_bug :
    (OldCluster.stage_point_visits solveC clOne ptB).2 =
      some (sumVisits clOne.points) ∧
    sumVisits clOne.points = 3 ∧
    sumVisits (clOne.points ++ [ptB]) = 5 ∧ ((3 : ℚ) ≠ 5) := by
  refine ⟨rfl, ?_, ?_, by norm_num⟩ <;>
    norm_num [sumVisits, clOne, ptA, ptB]

/-- C9 counterexample: a record with an identity key but latitude 200 (far
outside [-90, 90]) is accepted: construction performs no range check. -/
theorem point_init_no_range_check_cex :
    (Point.init 200 0 ["id"] 1 0).isSome = true ∧ ¬ ((200 : ℚ) ≤ 90) := by
  decide

/-- C9 amended: Point construction succeeds exactly when the record carries a
'rec_id' or 'id' key; coordinates are stored without any range check. -/
theorem point_init_succeeds_iff (lat lng : ℚ) (keys : List String)
    (pid : Nat) (v : ℚ) :
    (Point.init lat lng keys pid v).isSome = true ↔
      ("rec_id" ∈ keys ∨ "id" ∈ keys) := by
  by_cases h : ("rec_id" ∈ keys ∨ "id" ∈ keys) <;> simp [Point.init, h]

theorem get_points_loop_fst :
    ∀ (queue : List (Point × ℚ)) (pool : List Point),
      (get_points_loop queue pool).1 = queue.map Prod.fst := by
  intro queue
  induction queue with
  | nil => intro pool; rfl
  | cons x rest ih =>
    intro pool
    cases x with
    | mk p dist => simp [get_points_loop, ih]

/-- C7: the candidate queue contains exactly the pool points, each paired with
its distance to the reference, it is sorted nondecreasing on the distance
component, and one full run of the get_points generator yields exactly the
queue's points in queue order, i.e. nearest-first. -/
theorem get_nearest_queue_spec (d : Point → Point → ℚ) (ref : Point)
    (pool : List Point) (_hne : pool ≠ []) :
    (get_nearest_queue d ref pool).Perm (pool.map fun p => (p, d ref p)) ∧
    List.Sorted distLE (get_nearest_queue d ref pool) ∧
    (get_points_loop (get_nearest_queue d ref pool) pool).1 =
      (get_nearest_queue d ref pool).map Prod.fst :=
  ⟨List.perm_insertionSort distLE _, List.sorted_insertionSort distLE _,
   get_points_loop_fst _ _⟩

/-- Witness for get_nearest_queue_spec at a concrete two-point pool. -/
theorem get_nearest_queue_spec_witness :
    ([ptA, ptB] ≠ ([] : List Point)) ∧
    ((get_nearest_queue dC ptC [ptA, ptB]).Perm
        ([ptA, ptB].map fun p => (p, dC ptC p)) ∧
      List.Sorted distLE (get_nearest_queue dC ptC [ptA, ptB]) ∧
      (get_points_loop (get_nearest_queue dC ptC [ptA, ptB]) [ptA, ptB]).1 =
        (get_nearest_queue dC ptC [ptA, ptB]).map Prod.fst) :=
  ⟨by decide, get_nearest_queue_spec dC ptC [ptA, ptB] (by decide)⟩

theorem py_max_by_mem (f : Point → ℚ) :
    ∀ (l : List Point) (b : Point), py_max_by f b l ∈ b :: l := by
  intro l
  induction l with
  | nil => intro b; simp [py_max_by]
  | cons q qs ih =>
    intro b
    simp only [py_max_by]
    by_cases h : f q > f b
    · rw [if_pos h]
      exact List.mem_cons_of_mem b (ih q)
    · rw [if_neg h]
      rcases List.mem_cons.mp (ih b) with hb | hqs
      · rw [hb]; exact List.mem_cons_self _ _
      · exact List.mem_cons_of_mem b (List.mem_cons_of_mem q hqs)

theorem py_max_by_ge (f : Point → ℚ) :
    ∀ (l : List Point) (b : Point), ∀ x ∈ b :: l, f x ≤ f (py_max_by f b l) := by
  intro l
  induction l with
  | nil =>
    intro b x hx
    simp at hx
    subst hx
    simp [py_max_by]
  | cons q qs ih =>
    intro b x hx
    simp only [py_max_by]
    by_cases h : f q > f b
    · rw [if_pos h]
      rcases List.mem_cons.mp hx with rfl | hx1
      · have h1 := ih q q (List.mem_cons_self q qs)
        linarith
      · rcases List.mem_cons.mp hx1 with rfl | hx2
        · exact ih x x (List.mem_cons_self x qs)
        · exact ih q x (List.mem_cons_of_mem q hx2)
    · rw [if_neg h]
      rcases List.mem_cons.mp hx with rfl | hx1
      · exact ih x x (List.mem_cons_self x qs)
      · rcases List.mem_cons.mp hx1 with rfl | hx2
        · have h1 := ih b b (List.mem_cons_self b qs)
          push_neg at h
          linarith
        · exact ih b x (List.mem_cons_of_mem b hx2)

theorem py_max_by_first (f : Point → ℚ) :
    ∀ (l : List Point) (b : Point), (b :: l).Nodup →
      ∀ x ∈ b :: l, f x = f (py_max_by f b l) →
        (b :: l).indexOf (py_max_by f b l) ≤ (b :: l).indexOf x := by
  intro l
  induction l with
  | nil =>
    intro b _ x hx _
    simp at hx
    subst hx
    simp [py_max_by]
  | cons q qs ih =>
    intro b hnd x hx hfx
    have hbq : b ∉ q :: qs := (List.nodup_cons.mp hnd).1
    have hnd1 : (q :: qs).Nodup := (List.nodup_cons.mp hnd).2
    have hqqs : q ∉ qs := (List.nodup_cons.mp hnd1).1
    have hndqs : qs.Nodup := (List.nodup_cons.mp hnd1).2
    have hbqs : b ∉ qs := fun hm => hbq (List.mem_cons_of_mem q hm)
    simp only [py_max_by] at hfx ⊢
    by_cases h : f q > f b
    · rw [if_pos h] at hfx ⊢
      have hrmem := py_max_by_mem f qs q
      have hrge := py_max_by_ge f qs q
      have hrb : py_max_by f q qs ≠ b := fun hr => hbq (hr ▸ hrmem)
      have hbr : f b < f (py_max_by f q qs) :=
        lt_of_lt_of_le h (hrge q (List.mem_cons_self q qs))
      rcases List.mem_cons.mp hx with rfl | hx1
      · exact absurd hfx (by linarith)
      · have hxb : x ≠ b := fun hxx => hbq (hxx ▸ hx1)
        rw [List.indexOf_cons_ne _ (Ne.symm hrb), List.indexOf_cons_ne _ (Ne.symm hxb)]
        exact Nat.succ_le_succ (ih q hnd1 x hx1 hfx)
    · rw [if_neg h] at hfx ⊢
      have hQ : f q ≤ f b := not_lt.mp h
      have hndb : (b :: qs).Nodup := List.nodup_cons.mpr ⟨hbqs, hndqs⟩
      have hrmem := py_max_by_mem f qs b
      have hrge := py_max_by_ge f qs b
      have hfb : f b ≤ f (py_max_by f b qs) := hrge b (List.mem_cons_self b qs)
      have key : f b = f (py_max_by f b qs) → py_max_by f b qs = b := by
        intro hfeq
        have h0 := ih b hndb b (List.mem_cons_self b qs) hfeq
        rw [List.indexOf_cons_self] at h0
        by_contra hne1
        rw [List.indexOf_cons_ne _ (Ne.symm hne1)] at h0
        exact Nat.not_succ_le_zero _ h0
      rcases List.mem_cons.mp hx with rfl | hx1
      · rw [key hfx]
      · rcases List.mem_cons.mp hx1 with rfl | hx2
        · have hfbr : f b = f (py_max_by f b qs) := le_antisymm hfb (hfx ▸ hQ)
          rw [key hfbr, List.indexOf_cons_self]
          exact Nat.zero_le _
        · by_cases hrb : py_max_by f b qs = b
          · rw [hrb, List.indexOf_cons_self]
            exact Nat.zero_le _
          · have hrqs : py_max_by f b qs ∈ qs := by
              rcases List.mem_cons.mp hrmem with hh | hh
              · exact absurd hh hrb
              · exact hh
            have hrq : py_max_by f b qs ≠ q := fun hrr => hqqs (hrr ▸ hrqs)
            have hxb : x ≠ b := fun hxx => hbqs (hxx ▸ hx2)
            have hxq : x ≠ q := fun hxx => hqqs (hxx ▸ hx2)
            have hmain := ih b hndb x (List.mem_cons_of_mem b hx2) hfx
            rw [List.indexOf_cons_ne _ (Ne.symm hrb),
              List.indexOf_cons_ne _ (Ne.symm hxb)] at hmain
            rw [List.indexOf_cons_ne _ (Ne.symm hrb), List.indexOf_cons_ne _ (Ne.symm hrq),
              List.indexOf_cons_ne _ (Ne.symm hxb), List.indexOf_cons_ne _ (Ne.symm hxq)]
            exact Nat.succ_le_succ hmain

theorem dist_to_origin_sq_nonneg (p : Point) : 0 ≤ dist_to_origin_sq p := by
  unfold dist_to_origin_sq
  positivity

/-- C8: on a nonempty duplicate-free pool, the (spec-modelled) Furthest seed
selector with no explicit reference returns a pool member whose distance to
the origin — Real.sqrt of `dist_to_origin_sq`, exactly Point.dist_to_origin of
src/point.py — is maximal, and among members attaining the maximum it is the
first in pool iteration order. -/
theorem get_furthest_origin_spec (pool : List Point) (hne : pool ≠ [])
    (hnd : pool.Nodup) :
    ∃ p, get_furthest_origin pool = some p ∧ p ∈ pool ∧
      (∀ q ∈ pool, Real.sqrt ((dist_to_origin_sq q : ℝ)) ≤
        Real.sqrt ((dist_to_origin_sq p : ℝ))) ∧
      (∀ q ∈ pool, Real.sqrt ((dist_to_origin_sq q : ℝ)) =
          Real.sqrt ((dist_to_origin_sq p : ℝ)) →
        pool.indexOf p ≤ pool.indexOf q) := by
  cases pool with
  | nil => exact absurd rfl hne
  | cons a l =>
    refine ⟨py_max_by dist_to_origin_sq a l, rfl, py_max_by_mem _ l a, ?_, ?_⟩
    · intro q hq
      exact Real.sqrt_le_sqrt (by exact_mod_cast py_max_by_ge dist_to_origin_sq l a q hq)
    · intro q hq heq
      have hq0 : (0 : ℝ) ≤ ((dist_to_origin_sq q : ℚ) : ℝ) := by
        exact_mod_cast dist_to_origin_sq_nonneg q
      have hp0 : (0 : ℝ) ≤
          ((dist_to_origin_sq (py_max_by dist_to_origin_sq a l) : ℚ) : ℝ) := by
        exact_mod_cast dist_to_origin_sq_nonneg _
      have hc : ((dist_to_origin_sq q : ℚ) : ℝ) =
          ((dist_to_origin_sq (py_max_by dist_to_origin_sq a l) : ℚ) : ℝ) := by
        calc ((dist_to_origin_sq q : ℚ) : ℝ)
            = Real.sqrt ((dist_to_origin_sq q : ℚ) : ℝ) ^ 2 := (Real.sq_sqrt hq0).symm
          _ = Real.sqrt ((dist_to_origin_sq (py_max_by dist_to_origin_sq a l) : ℚ) : ℝ) ^ 2 := by
              rw [heq]
          _ = ((dist_to_origin_sq (py_max_by dist_to_origin_sq a l) : ℚ) : ℝ) :=
              Real.sq_sqrt hp0
      exact py_max_by_first dist_to_origin_sq l a hnd q hq (by exact_mod_cast hc)

/-- Witness for get_furthest_origin_spec at a concrete two-point pool. -/
theorem get_furthest_origin_spec_witness :
    (([ptB, ptD] : List Point) ≠ [] ∧ ([ptB, ptD] : List Point).Nodup) ∧
    (∃ p, get_furthest_origin [ptB, ptD] = some p ∧ p ∈ [ptB, ptD] ∧
      (∀ q ∈ [ptB, ptD], Real.sqrt ((dist_to_origin_sq q : ℝ)) ≤
        Real.sqrt ((dist_to_origin_sq p : ℝ))) ∧
      (∀ q ∈ [ptB, ptD], Real.sqrt ((dist_to_origin_sq q : ℝ)) =
          Real.sqrt ((dist_to_origin_sq p : ℝ)) →
        ([ptB, ptD] : List Point).indexOf p ≤ ([ptB, ptD] : List Point).indexOf q)) :=
  ⟨⟨by decide, by decide⟩, get_furthest_origin_spec [ptB, ptD] (by decide) (by decide)⟩

theorem consume_queue_pool_sublist (solve : List Point → Point) (d : Point → Point → ℚ)
    (uc : Bool) :
    ∀ (queue : List (Point × ℚ)) (g : PointGroup) (pool : List Point),
      List.Sublist ((consume_queue solve d uc queue g pool).2) pool := by
  intro queue
  induction queue with
  | nil => intro g pool; exact List.Sublist.refl pool
  | cons x rest ih =>
    intro g pool
    cases x with
    | mk p dist =>
      rcases hr : add_point solve d g p uc with ⟨g1, flag⟩
      cases flag
      · simp only [consume_queue, hr]
        exact (ih g1 (pool.erase p)).trans (List.erase_sublist p pool)
      · simp only [consume_queue, hr]
        exact List.Sublist.refl pool

theorem consume_queue_perm (solve : List Point → Point) (d : Point → Point → ℚ)
    (uc : Bool) :
    ∀ (queue : List (Point × ℚ)) (g : PointGroup) (pool : List Point),
      (∀ x ∈ queue, x.1 ∈ pool) → (queue.map Prod.fst).Nodup →
      (g.points ++ pool).Nodup →
      (((consume_queue solve d uc queue g pool).1).points ++
        (consume_queue solve d uc queue g pool).2).Perm (g.points ++ pool) := by
  intro queue
  induction queue with
  | nil => intro g pool _ _ _; simp [consume_queue]
  | cons x rest ih =>
    intro g pool hq hqnd hnd
    cases x with
    | mk p dist =>
      rw [List.map_cons] at hqnd
      have hppool : p ∈ pool := hq (p, dist) (List.mem_cons_self _ _)
      have hdisj : List.Disjoint g.points pool := (List.nodup_append.mp hnd).2.2
      have hpg : p ∉ g.points := fun hmem => hdisj hmem hppool
      have hpoolnd : pool.Nodup := (List.nodup_append.mp hnd).2.1
      rcases hr : add_point solve d g p uc with ⟨g1, flag⟩
      cases flag
      · have hg1 : g1.points = p :: g.points := by
          have hok := add_point_points_ok solve d uc hpg
          rw [hr] at hok
          exact hok rfl
        have hpermstep : ((p :: g.points) ++ pool.erase p).Perm (g.points ++ pool) := by
          have h1 : (g.points ++ (p :: pool.erase p)).Perm
              (g.points ++ pool) :=
            List.Perm.append_left _ (List.perm_cons_erase hppool).symm
          exact (List.perm_middle.symm.trans h1)
        have hrest1 : ∀ x ∈ rest, x.1 ∈ pool.erase p := by
          intro x hx
          have hx1 : x.1 ∈ pool := hq x (List.mem_cons_of_mem _ hx)
          have hxne : x.1 ≠ p := by
            intro hcon
            have hmm1 : x.1 ∈ rest.map Prod.fst := List.mem_map_of_mem Prod.fst hx
            rw [hcon] at hmm1
            exact (List.nodup_cons.mp hqnd).1 hmm1
          exact (hpoolnd.mem_erase_iff).mpr ⟨hxne, hx1⟩
        have hnd1 : (g1.points ++ pool.erase p).Nodup := by
          rw [hg1]
          exact hpermstep.symm.nodup hnd
        have hres := ih g1 (pool.erase p) hrest1 (List.nodup_cons.mp hqnd).2 hnd1
        simp only [consume_queue, hr]
        refine hres.trans ?_
        rw [hg1]
        exact hpermstep
      · have hg1 : g1.points = g.points := by
          have hraised := add_point_points_raised solve d uc hpg
          rw [hr] at hraised
          exact hraised rfl
        simp only [consume_queue, hr]
        rw [hg1]

theorem mem_get_nearest_queue {d : Point → Point → ℚ} {ref : Point}
    {pool : List Point} {x : Point × ℚ}
    (hx : x ∈ get_nearest_queue d ref pool) : x.1 ∈ pool := by
  have h1 := (List.perm_insertionSort distLE
    (pool.map fun p => (p, d ref p))).mem_iff.mp hx
  rcases List.mem_map.mp h1 with ⟨p, hp, rfl⟩
  exact hp

theorem get_nearest_queue_fst_perm (d : Point → Point → ℚ) (ref : Point)
    (pool : List Point) :
    ((get_nearest_queue d ref pool).map Prod.fst).Perm pool := by
  have h2 := (List.perm_insertionSort distLE
    (pool.map fun p => (p, d ref p))).map Prod.fst
  have h3 : List.map Prod.fst (List.map (fun p => (p, d ref p)) pool) = pool := by
    rw [List.map_map]
    have hid : (Prod.fst ∘ fun p : Point => (p, d ref p)) = id := rfl
    rw [hid, List.map_id]
  rw [h3] at h2
  exact h2

theorem cluster_step_perm (solve : List Point → Point) (d : Point → Point → ℚ)
    {seed : Point} {pool : List Point} (md mv : Option ℚ)
    (hseed : seed ∈ pool) (hnd : pool.Nodup) :
    (((cluster_step solve d seed pool md mv).1).points ++
      (cluster_step solve d seed pool md mv).2).Perm pool := by
  have hnd1 : (pool.erase seed).Nodup := hnd.erase seed
  have hq : ∀ x ∈ get_nearest_queue d seed (pool.erase seed),
      x.1 ∈ pool.erase seed := fun _ hx => mem_get_nearest_queue hx
  have hqnd : ((get_nearest_queue d seed (pool.erase seed)).map Prod.fst).Nodup :=
    (get_nearest_queue_fst_perm d seed (pool.erase seed)).symm.nodup hnd1
  have hndapp : ((PointGroup.mkSeed d seed md mv).points ++ pool.erase seed).Nodup := by
    simp only [PointGroup.mkSeed, List.singleton_append, List.nodup_cons]
    exact ⟨hnd.not_mem_erase, hnd1⟩
  have hmain := consume_queue_perm solve d md.isSome _ _ _ hq hqnd hndapp
  have hfinal : ((PointGroup.mkSeed d seed md mv).points ++ pool.erase seed).Perm pool := by
    simp only [PointGroup.mkSeed, List.singleton_append]
    exact (List.perm_cons_erase hseed).symm
  simp only [cluster_step]
  exact hmain.trans hfinal

theorem cluster_step_pool_sublist (solve : List Point → Point) (d : Point → Point → ℚ)
    (seed : Point) (pool : List Point) (md mv : Option ℚ) :
    List.Sublist ((cluster_step solve d seed pool md mv).2) (pool.erase seed) := by
  simp only [cluster_step]
  exact consume_queue_pool_sublist solve d md.isSome _ _ _

theorem cluster_loop_cons (solve : List Point → Point) (d : Point → Point → ℚ)
    (select : List Point → Point) (md mv : Option ℚ) (fuel : Nat)
    (a : Point) (t : List Point) (assigned : List PointGroup) :
    cluster_loop solve d select md mv (fuel + 1) (a :: t) assigned =
      cluster_loop solve d select md mv fuel
        (cluster_step solve d (select (a :: t)) (a :: t) md mv).2
        (assigned ++ [(cluster_step solve d (select (a :: t)) (a :: t) md mv).1]) := by
  simp [cluster_loop]

theorem cluster_loop_partition (solve : List Point → Point) (d : Point → Point → ℚ)
    (select : List Point → Point) (md mv : Option ℚ)
    (hsel : ∀ l : List Point, l ≠ [] → select l ∈ l) :
    ∀ (fuel : Nat) (pool : List Point) (assigned : List PointGroup),
      pool.Nodup → pool.length ≤ fuel →
      (cluster_loop solve d select md mv fuel pool assigned).2 = [] ∧
      (((cluster_loop solve d select md mv fuel pool assigned).1).map
          (fun g => g.points)).flatten.Perm
        ((assigned.map (fun g => g.points)).flatten ++ pool) := by
  intro fuel
  induction fuel with
  | zero =>
    intro pool assigned hnd hlen
    have hpool : pool = [] := List.length_eq_zero.mp (Nat.le_zero.mp hlen)
    subst hpool
    simp [cluster_loop]
  | succ fuel ih =>
    intro pool assigned hnd hlen
    cases pool with
    | nil => simp [cluster_loop]
    | cons a t =>
      have hseed : select (a :: t) ∈ a :: t := hsel (a :: t) (by simp)
      have hperm := cluster_step_perm solve d md mv hseed hnd
      have hsub := cluster_step_pool_sublist solve d (select (a :: t)) (a :: t) md mv
      have hndapp : ((cluster_step solve d (select (a :: t)) (a :: t) md mv).1.points ++
          (cluster_step solve d (select (a :: t)) (a :: t) md mv).2).Nodup :=
        hperm.symm.nodup hnd
      have hnd2 : (cluster_step solve d (select (a :: t)) (a :: t) md mv).2.Nodup :=
        (List.nodup_append.mp hndapp).2.1
      have hlen2 : (cluster_step solve d (select (a :: t)) (a :: t) md mv).2.length ≤ fuel := by
        have h1 := hsub.length_le
        have h2 := List.length_erase_of_mem hseed
        simp only [List.length_cons] at h2 hlen
        omega
      have ihres := ih _ (assigned ++ [(cluster_step solve d (select (a :: t)) (a :: t) md mv).1])
        hnd2 hlen2
      rw [cluster_loop_cons]
      refine ⟨ihres.1, ?_⟩
      have h3 := ihres.2
      have hjoin : (((assigned ++ [(cluster_step solve d (select (a :: t)) (a :: t) md mv).1]).map
          (fun g => g.points)).flatten)
          = ((assigned.map fun g => g.points).flatten ++
            (cluster_step solve d (select (a :: t)) (a :: t) md mv).1.points) := by
        simp
      rw [hjoin, List.append_assoc] at h3
      exact h3.trans (List.Perm.append_left _ hperm)

/-- C1: a full clustering run (any seed selector that picks pool members, no
pre-defined seeds, any caps) partitions the input: the concatenated
memberships of the appended clusters are a permutation of the original pool
(each point exactly once) and the unassigned pool ends empty. -/
theorem cluster_run_partition (solve : List Point → Point) (d : Point → Point → ℚ)
    (select : List Point → Point) (md mv : Option ℚ) (pool : List Point)
    (hsel : ∀ l : List Point, l ≠ [] → select l ∈ l) (hnd : pool.Nodup) :
    (cluster_run solve d select md mv pool).2 = [] ∧
    (((cluster_run solve d select md mv pool).1).map
        (fun g => g.points)).flatten.Perm pool := by
  have h := cluster_loop_partition solve d select md mv hsel pool.length pool []
    hnd (le_refl _)
  simpa [cluster_run] using h

/-- Witness for cluster_run_partition on a concrete three-point pool with a
weight cap. -/
theorem cluster_run_partition_witness :
    ((∀ l : List Point, l ≠ [] → selectC l ∈ l) ∧
      ([ptA, ptB, ptC] : List Point).Nodup) ∧
    ((cluster_run solveC dC selectC none (some 4) [ptA, ptB, ptC]).2 = [] ∧
      (((cluster_run solveC dC selectC none (some 4) [ptA, ptB, ptC]).1).map
          (fun g => g.points)).flatten.Perm [ptA, ptB, ptC]) :=
  ⟨⟨selectC_mem, by decide⟩,
   cluster_run_partition solveC dC selectC none (some 4) [ptA, ptB, ptC]
     selectC_mem (by decide)⟩

theorem add_point_dist_cv (solve : List Point → Point) (d : Point → Point → ℚ)
    (g : PointGroup) (p : Point) (uc : Bool) :
    ((add_point_dist solve d g p uc).1).current_visits = g.current_visits := by
  cases uc <;> rcases hmd : g.max_distance with _ | mdv <;>
    simp [add_point_dist, hmd] <;> split_ifs <;> simp

theorem sumVisits_add_point_dist_le (solve : List Point → Point)
    (d : Point → Point → ℚ) {p : Point} (g : PointGroup) (uc : Bool)
    (h : 0 ≤ p.visits) :
    sumVisits ((add_point_dist solve d g p uc).1).points ≤
      sumVisits g.points + p.visits := by
  have hbase : sumVisits g.points ≤ sumVisits g.points + p.visits := by linarith
  rcases hmd : g.max_distance with _ | mdv
  · cases uc <;> simp [add_point_dist, hmd] <;> exact sumVisits_setAdd_le _ h
  · cases uc
    · simp only [add_point_dist, hmd, Bool.false_eq_true, if_false]
      split_ifs
      · exact hbase
      · exact sumVisits_setAdd_le _ h
    · simp only [add_point_dist, hmd, if_true]
      split_ifs
      · exact le_trans (sumVisits_erase_le _ h) (sumVisits_setAdd_le _ h)
      · rw [setAdd_idem]
        exact sumVisits_setAdd_le _ h

theorem add_point_dist_WInv {C : ℚ} (solve : List Point → Point)
    (d : Point → Point → ℚ) (g2 : PointGroup) (p : Point) (uc : Bool)
    (hp : 0 ≤ p.visits)
    (hsum : sumVisits g2.points + p.visits ≤ g2.current_visits)
    (hcv : g2.current_visits ≤ C) :
    WInv C ((add_point_dist solve d g2 p uc).1) := by
  constructor
  · have h1 := sumVisits_add_point_dist_le solve d g2 uc hp
    have h2 := add_point_dist_cv solve d g2 p uc
    rw [h2]
    linarith
  · left
    rw [add_point_dist_cv]
    exact hcv

theorem add_point_WInv (solve : List Point → Point) (d : Point → Point → ℚ)
    {C : ℚ} {g : PointGroup} {p : Point} (uc : Bool)
    (hmv : g.max_visits = some C) (hp : 0 ≤ p.visits) (hg : WInv C g) :
    WInv C ((add_point solve d g p uc).1) := by
  rcases hmd : g.max_distance with _ | mdv <;>
    (simp only [add_point, hmd, hmv]
     split_ifs with hcmp
     · exact hg
     · refine add_point_dist_WInv solve d _ p uc hp ?_ ?_
       · show sumVisits g.points + p.visits ≤ g.current_visits + p.visits
         have h1 := hg.1
         linarith
       · show g.current_visits + p.visits ≤ C
         exact not_lt.mp hcmp)

theorem consume_queue_WInv (solve : List Point → Point) (d : Point → Point → ℚ)
    (uc : Bool) :
    ∀ (queue : List (Point × ℚ)) (g : PointGroup) (pool : List Point) {C : ℚ},
      g.max_visits = some C → WInv C g → (∀ x ∈ queue, 0 ≤ x.1.visits) →
      WInv C ((consume_queue solve d uc queue g pool).1) := by
  intro queue
  induction queue with
  | nil => intro g pool C hmv hg _; simpa [consume_queue] using hg
  | cons x rest ih =>
    intro g pool C hmv hg hq
    cases x with
    | mk p dist =>
      have hp : 0 ≤ p.visits := hq (p, dist) (List.mem_cons_self _ _)
      rcases hr : add_point solve d g p uc with ⟨g1, flag⟩
      have hg1 : WInv C g1 := by
        have hW := add_point_WInv solve d uc hmv hp hg
        rw [hr] at hW
        exact hW
      have hmax1 : g1.max_visits = some C := by
        have hM := (add_point_max_eq solve d g p uc).1
        rw [hr] at hM
        exact hM.trans hmv
      cases flag
      · simp only [consume_queue, hr]
        exact ih g1 (pool.erase p) hmax1 hg1
          (fun x hx => hq x (List.mem_cons_of_mem _ hx))
      · simp only [consume_queue, hr]
        exact hg1

theorem mkSeed_WInv (d : Point → Point → ℚ) (p : Point) (md : Option ℚ) (C : ℚ) :
    WInv C (PointGroup.mkSeed d p md (some C)) := by
  constructor
  · simp [PointGroup.mkSeed, sumVisits]
  · rcases le_or_lt p.visits C with hle | hlt
    · left
      simpa [PointGroup.mkSeed] using hle
    · right
      exact ⟨p, by simp [PointGroup.mkSeed], hlt, by simp [PointGroup.mkSeed]⟩

theorem cluster_step_WInv (solve : List Point → Point) (d : Point → Point → ℚ)
    (seed : Point) (pool : List Point) (md : Option ℚ) (C : ℚ)
    (hp : ∀ q ∈ pool, 0 ≤ q.visits) :
    WInv C ((cluster_step solve d seed pool md (some C)).1) := by
  simp only [cluster_step]
  exact consume_queue_WInv solve d md.isSome _ _ _ rfl (mkSeed_WInv d seed md C)
    (fun x hx => hp x.1 (List.erase_subset _ _ (mem_get_nearest_queue hx)))

theorem cluster_loop_WInv (solve : List Point → Point) (d : Point → Point → ℚ)
    (select : List Point → Point) (md : Option ℚ) (C : ℚ) :
    ∀ (fuel : Nat) (pool : List Point) (assigned : List PointGroup),
      (∀ q ∈ pool, 0 ≤ q.visits) → (∀ g ∈ assigned, WInv C g) →
      ∀ g ∈ (cluster_loop solve d select md (some C) fuel pool assigned).1, WInv C g := by
  intro fuel
  induction fuel with
  | zero =>
    intro pool assigned _ ha g hg
    exact ha g (by simpa [cluster_loop] using hg)
  | succ fuel ih =>
    intro pool assigned hp ha
    cases pool with
    | nil =>
      intro g hg
      exact ha g (by simpa [cluster_loop] using hg)
    | cons a t =>
      rw [cluster_loop_cons]
      refine ih _ _ ?_ ?_
      · intro q hq
        have hsub := cluster_step_pool_sublist solve d (select (a :: t)) (a :: t) md (some C)
        exact hp q (List.erase_subset _ _ (hsub.subset hq))
      · intro g hg
        rcases List.mem_append.mp hg with hg1 | hg2
        · exact ha g hg1
        · have hgeq : g = (cluster_step solve d (select (a :: t)) (a :: t) md (some C)).1 := by
            simpa using hg2
          rw [hgeq]
          exact cluster_step_WInv solve d _ _ md C hp

/-- C2: in a weight-capped run with cap C (with or without a distance cap, any
seed selector), every finalized cluster either has aggregate weight at most C
or is a single over-cap seed whose own weight exceeds C. -/
theorem cluster_run_weight_cap (solve : List Point → Point) (d : Point → Point → ℚ)
    (select : List Point → Point) (md : Option ℚ) (C : ℚ) (pool : List Point)
    (hw : ∀ q ∈ pool, 0 ≤ q.visits) :
    ∀ g ∈ (cluster_run solve d select md (some C) pool).1,
      sumVisits g.points ≤ C ∨ ∃ q, g.points = [q] ∧ C < q.visits := by
  intro g hg
  have hW : WInv C g :=
    cluster_loop_WInv solve d select md C pool.length pool [] hw (by simp) g
      (by simpa [cluster_run] using hg)
  rcases hW with ⟨hsum, hcv | ⟨q, hqe, hCq, _⟩⟩
  · left
    linarith
  · right
    exact ⟨q, hqe, hCq⟩

/-- Witness for cluster_run_weight_cap on a concrete three-point pool. -/
theorem cluster_run_weight_cap_witness :
    (∀ q ∈ ([ptA, ptB, ptC] : List Point), 0 ≤ q.visits) ∧
    (∀ g ∈ (cluster_run solveC dC selectC none (some 4) [ptA, ptB, ptC]).1,
      sumVisits g.points ≤ 4 ∨ ∃ q, g.points = [q] ∧ 4 < q.visits) :=
  ⟨by decide, cluster_run_weight_cap solveC dC selectC none 4 [ptA, ptB, ptC] (by decide)⟩

end GeoTools
